import Mathlib

/-!
# Verification of the batched collection-operation engine of `jfcote87/salesforce`

This file embeds, in Lean, the core of the Go package `salesforce`:

* the batch splitter implicit in the loops of `Service.CompositeCall` and
  `Service.DeleteRecords` (`composite.go`),
* the collection-write engine `CompositeCall` (used by `CreateRecords`,
  `UpdateRecords`, `UpsertRecords`) and `DeleteRecords`,
* the paginated query reader `Service.query` (`calls.go`) together with the
  accretive `RecordSlice.UnmarshalJSON` decode step (`salesforce.go`),
* the failure-extraction method `OpResponses.Errors` (`composite.go`),
* the `SObject` implementations found in the repository (generated structs
  with value receivers, `RecordMap`, `DeleteID`) and their `WithAttr`
  methods.

The external `Transport` (`Service.Call`) is modelled as an oracle indexed by
the number of calls made so far, receiving the path, method and body the Go
code passes to `Call` and returning either a decoded `[]OpResponse` or an
error.  Stateful Go features are made explicit: functions that mutate their
receiver (`RecordMap.WithAttr`, `OpResponses.Errors`) return the post-state
of the receiver alongside their Go return value.
-/

namespace SF

/-- `salesforce.Error`: one structured error entry inside an `OpResponse`. -/
structure SFError where
  statusCode : String
  message : String
  fields : List String
deriving DecidableEq

/-- `salesforce.Attributes` (`structs.go`): attribute block attached to a
record: `Type`, `URL`, `Ref` (json `referenceId`). -/
structure Attributes where
  type_ : String
  url : String
  ref : String
deriving DecidableEq

/-- The `SObject` implementations present in the repository:
`structRec` stands for the structs emitted by `genpkgs` (value receiver,
`Attributes *salesforce.Attributes` field), `recordMap` for
`salesforce.RecordMap` (a Go map, its attributes entry modelled as a
distinguished optional `Attributes` slot next to the remaining entries),
and `deleteID` for `salesforce.DeleteID`. -/
inductive SObject where
  | structRec (name : String) (attrs : Option Attributes)
  | recordMap (attrs : Option Attributes) (fields : List (String × String))
  | deleteID (id : String)
deriving DecidableEq

/-- `SObjectName` for each implementation: generated structs return their API
name literal; `RecordMap.SObjectName` reads the type out of the stored
attributes entry (empty string when absent); `DeleteID.SObjectName` returns
`"DeleteID"`. -/
def SObject.sobjectName : SObject → String
  | .structRec name _ => name
  | .recordMap (some a) _ => a.type_
  | .recordMap none _ => ""
  | .deleteID _ => "DeleteID"

/-- `WithAttr` for each implementation.  The first component is the value the
method returns (what the engine transmits); the second is the state of the
caller's original value after the call.  Generated structs use a value
receiver (`tr.Attributes = &salesforce.Attributes{Type: "...", Ref: ref};
return tr`), so the original is untouched.  `RecordMap.WithAttr` executes
`m["attributes"] = &Attributes{Type: m.SObjectName(), Ref: ref}` on the
caller's map itself before returning it, so the original is the updated map.
`DeleteID.WithAttr` returns the receiver unchanged. -/
def SObject.withAttr (o : SObject) (ref : String) : SObject × SObject :=
  match o with
  | .structRec name attrs =>
      (.structRec name (some ⟨name, "", ref⟩), .structRec name attrs)
  | .recordMap attrs fields =>
      let updated : SObject :=
        .recordMap (some ⟨(SObject.recordMap attrs fields).sobjectName, "", ref⟩) fields
      (updated, updated)
  | .deleteID i => (.deleteID i, .deleteID i)

/-- `salesforce.OpResponse` (`calls.go`): per-record result of a collection
write.  `recordIndex` and `sobject` are the json-ignored fields filled in by
`OpResponses.Errors`. -/
structure OpResponse where
  id : String
  success : Bool
  errors : List SFError
  created : Bool
  recordIndex : Nat
  sobject : Option SObject
deriving DecidableEq

/-- Errors crossing the engine boundary: the distinguished
`salesforce.ErrZeroRecords` guard value, or any other error value
(transport errors, logging-hook errors), carried opaquely. -/
inductive Err where
  | zeroRecords
  | other (msg : String)
deriving DecidableEq

/-- `Service.MaxBatchSize` (`calls.go`): clamps the configured batch size into
`[1, 200]` for collection calls and `[200, 2000]` for queries; a zero (unset)
or too-large setting yields the maximum. -/
def maxBatchSize (isqry : Bool) (batchSize : Nat) : Nat :=
  let defaultMax : Nat := if isqry then 2000 else 200
  let defaultMin : Nat := if isqry then 200 else 1
  if batchSize = 0 ∨ defaultMax < batchSize then defaultMax
  else if batchSize < defaultMin then defaultMin
  else batchSize

/-- Fuelled chunking: `chunksF fuel b l` splits `l` into contiguous pieces of
`b` elements (the loop `for i := 0; i < len(recs); i += batchSz` with slice
`recs[i:min(i+batchSz, len(recs))]`).  `fuel = l.length` suffices whenever
`1 ≤ b`. -/
def chunksF {α : Type} : Nat → Nat → List α → List (List α)
  | 0, _, _ => []
  | _ + 1, _, [] => []
  | fuel + 1, b, l => l.take b :: chunksF fuel b (l.drop b)

/-- The batch splitter used by `CompositeCall` and `DeleteRecords`: the
`j`-th batch is `recs[j*b : min((j+1)*b, len(recs))]` and is reported to the
logging hook with offset `i = j*b`. -/
def batches {α : Type} (b : Nat) (l : List α) : List (Nat × List α) :=
  (chunksF l.length b l).enum.map (fun p => (p.1 * b, p.2))

/-- `BatchBody` (`composite.go`): the request body of one collection-write
transport call. -/
structure BatchBody where
  allOrNone : Bool
  records : List SObject
deriving DecidableEq

/-- One `Service.Call` issued by `CompositeCall`, as observed by the
transport: path, method and json body. -/
structure CompositeCallRec where
  path : String
  method : String
  body : BatchBody
deriving DecidableEq

/-- One `Service.Call` issued by `DeleteRecords`: path (carrying the id list)
and method; the body is nil. -/
structure DeleteCallRec where
  path : String
  method : String
deriving DecidableEq

/-- The transport oracle for `CompositeCall`: given the number of calls made
so far and the path, method and body of the request, returns the decoded
`[]OpResponse` or the error of `Service.Call`. -/
def CompositeTransport : Type :=
  Nat → String → String → BatchBody → Except Err (List OpResponse)

/-- The transport oracle for `DeleteRecords` (body is always nil). -/
def DeleteTransport : Type :=
  Nat → String → String → Except Err (List OpResponse)

/-- `BatchLogFunc` (`composite.go`) with the `context.Context` argument
dropped: receives the batch offset, the batch's `SObject`s and the batch's
`OpResponse`s, and optionally returns an error that halts the call. -/
def Logger : Type :=
  Nat → List SObject → List OpResponse → Option Err

/-- Result of one engine invocation: the returned `[]OpResponse`, the
returned error, and the trace of transport calls issued (in order). -/
structure EngineResult (κ : Type) where
  opResp : List OpResponse
  error : Option Err
  calls : List κ
deriving DecidableEq

/-- The per-batch tagging loop of `CompositeCall`:
`cmdRecs = append(cmdRecs, r.WithAttr(""))` over the batch. -/
def tagBatch (batch : List SObject) : List SObject :=
  batch.map (fun r => (r.withAttr "").1)

/-- The transport-call record `CompositeCall` produces for one batch. -/
def ccCallRec (allOrNone : Bool) (path method : String)
    (pb : Nat × List SObject) : CompositeCallRec :=
  ⟨path, method, ⟨allOrNone, tagBatch pb.2⟩⟩

/-- The batch loop of `CompositeCall` (`composite.go` lines 166-187), over
the already-split batches, threading the call counter `k`, the running
aggregate `acc` (`opResp`) and the transport-call trace.  On a transport
error the loop returns `(opResp, err)`; after a successful call it appends
the responses and, when a logger is configured, invokes it and returns
`(opResp, err)` if the hook errs. -/
def ccRun (allOrNone : Bool) (path method : String) (tr : CompositeTransport)
    (lg : Option Logger) :
    List (Nat × List SObject) → Nat → List OpResponse →
      List CompositeCallRec → EngineResult CompositeCallRec
  | [], _, acc, calls => ⟨acc, none, calls⟩
  | (off, batch) :: rest, k, acc, calls =>
    let cmdRecs := tagBatch batch
    let body : BatchBody := ⟨allOrNone, cmdRecs⟩
    match tr k path method body with
    | .error e => ⟨acc, some e, calls ++ [⟨path, method, body⟩]⟩
    | .ok res =>
      match lg with
      | none =>
          ccRun allOrNone path method tr lg rest (k + 1) (acc ++ res)
            (calls ++ [⟨path, method, body⟩])
      | some l =>
        match l off cmdRecs res with
        | some e => ⟨acc ++ res, some e, calls ++ [⟨path, method, body⟩]⟩
        | none =>
            ccRun allOrNone path method tr lg rest (k + 1) (acc ++ res)
              (calls ++ [⟨path, method, body⟩])

/-- `Service.CompositeCall` (`composite.go`): guard against an empty record
list, compute the effective batch size via `MaxBatchSize`, then run the
batch loop.  `bsz` is the service's configured `batchSize` field. -/
def compositeCall (bsz : Nat) (tr : CompositeTransport) (lg : Option Logger)
    (allOrNone : Bool) (path method : String) (recs : List SObject) :
    EngineResult CompositeCallRec :=
  if recs.length = 0 then ⟨[], some .zeroRecords, []⟩
  else ccRun allOrNone path method tr lg
    (batches (maxBatchSize false bsz) recs) 0 [] []

/-- `Service.CreateRecords`: `CompositeCall` on `composite/sobjects` with
method POST. -/
def createRecords (bsz : Nat) (tr : CompositeTransport) (lg : Option Logger)
    (allOrNone : Bool) (recs : List SObject) : EngineResult CompositeCallRec :=
  compositeCall bsz tr lg allOrNone "composite/sobjects" "POST" recs

/-- `Service.UpdateRecords`: `CompositeCall` on `composite/sobjects` with
method PATCH. -/
def updateRecords (bsz : Nat) (tr : CompositeTransport) (lg : Option Logger)
    (allOrNone : Bool) (recs : List SObject) : EngineResult CompositeCallRec :=
  compositeCall bsz tr lg allOrNone "composite/sobjects" "PATCH" recs

/-- `Service.UpsertRecords`: guards against the empty list itself (before
reading `recs[0].SObjectName()` for the path), then calls `CompositeCall`
with method PATCH. -/
def upsertRecords (bsz : Nat) (tr : CompositeTransport) (lg : Option Logger)
    (allOrNone : Bool) (externalIDField : String) (recs : List SObject) :
    EngineResult CompositeCallRec :=
  if recs.length = 0 then ⟨[], some .zeroRecords, []⟩
  else
    let sobjNm := (recs.headD (.deleteID "")).sobjectName
    compositeCall bsz tr lg allOrNone
      ("composite/sobjects/" ++ sobjNm ++ "/" ++ externalIDField) "PATCH" recs

/-- The path `DeleteRecords` builds for one batch of ids:
`"composite/sobjects?ids=" + strings.Join(delIDs, ",")`. -/
def delPath (ids : List String) : String :=
  "composite/sobjects?ids=" ++ String.intercalate "," ids

/-- The batch loop of `DeleteRecords` (`composite.go` lines 131-152).  It
differs from `ccRun` in three ways that mirror the source: the ids travel in
the path and the body is nil; the logging hook receives the ids wrapped as
`DeleteID` objects; and when the hook errs the function executes
`return nil, err`, discarding the aggregate collected so far. -/
def drRun (tr : DeleteTransport) (lg : Option Logger) :
    List (Nat × List String) → Nat → List OpResponse →
      List DeleteCallRec → EngineResult DeleteCallRec
  | [], _, acc, calls => ⟨acc, none, calls⟩
  | (off, ids) :: rest, k, acc, calls =>
    match tr k (delPath ids) "DELETE" with
    | .error e => ⟨acc, some e, calls ++ [⟨delPath ids, "DELETE"⟩]⟩
    | .ok res =>
      let delrecids := ids.map SObject.deleteID
      match lg with
      | none =>
          drRun tr lg rest (k + 1) (acc ++ res)
            (calls ++ [⟨delPath ids, "DELETE"⟩])
      | some l =>
        match l off delrecids res with
        | some e => ⟨[], some e, calls ++ [⟨delPath ids, "DELETE"⟩]⟩
        | none =>
            drRun tr lg rest (k + 1) (acc ++ res)
              (calls ++ [⟨delPath ids, "DELETE"⟩])

/-- `Service.DeleteRecords` (`composite.go`): guard `len(ids) <= 0`, split
into batches of `MaxBatchSize`, run the delete loop. -/
def deleteRecords (bsz : Nat) (tr : DeleteTransport) (lg : Option Logger)
    (ids : List String) : EngineResult DeleteCallRec :=
  if ids.length = 0 then ⟨[], some .zeroRecords, []⟩
  else drRun tr lg (batches (maxBatchSize false bsz) ids) 0 [] []

/-- One page envelope of a query response (`QueryResponse` in
`salesforce.go`): the page-local rows and the server's done flag.  The
next-page URL chasing of `Service.query` is abstracted by indexing the
server oracle with the number of pages fetched so far; `totalSize` is
decoded but never read by the loop. -/
structure Page (α : Type) where
  rows : List α
  done : Bool

/-- `RecordSlice.UnmarshalJSON` (`salesforce.go` lines 62-75): the newly
decoded rows of a page are appended to the existing destination slice
(`reflect.AppendSlice(rs.resultsVal, tempSlice.Elem())`), never replacing
its prior contents. -/
def recordSliceUnmarshal {α : Type} (acc newRows : List α) : List α :=
  acc ++ newRows

/-- Outcome of `Service.query`: `ok rows` models a nil-error return with the
caller's slice holding `rows`; `fail e` models returning the transport
error; `diverge` marks fuel exhaustion of the embedding (the Go loop would
still be running). -/
inductive QueryResult (α : Type) where
  | ok (rows : List α)
  | fail (e : Err)
  | diverge (rows : List α)
deriving DecidableEq

/-- The `for !res.Done` loop of `Service.query` (`calls.go` lines 462-474):
fetch a page, append its rows to the accumulator via the accretive decode;
if a row cap is configured (`maxrows > 0`) and the accumulator has reached
it, slice the accumulator to `[0:maxrows]` and return nil; otherwise stop
successfully when the decoded done flag is set, else continue with the next
page.  `fuel` bounds the number of iterations of the embedding. -/
def queryRun {α : Type} (maxrows : Nat) (server : Nat → Except Err (Page α)) :
    Nat → Nat → List α → QueryResult α
  | 0, _, acc => .diverge acc
  | fuel + 1, k, acc =>
    match server k with
    | .error e => .fail e
    | .ok pg =>
      let acc' := recordSliceUnmarshal acc pg.rows
      if 0 < maxrows ∧ maxrows ≤ acc'.length then .ok (acc'.take maxrows)
      else if pg.done then .ok acc'
      else queryRun maxrows server fuel (k + 1) acc'

/-- `Service.query` entry: the accumulator starts as the caller's (empty)
slice and `res.Done` starts false, so the loop always issues at least one
call.  `maxrows` is the service's `WithMaxrows` setting (0 = no cap). -/
def query {α : Type} (maxrows : Nat) (server : Nat → Except Err (Page α))
    (fuel : Nat) : QueryResult α :=
  queryRun maxrows server fuel 0 []

/-- The element update `OpResponses.Errors` performs on an unsuccessful
response whose (batch-local) index is within range of the supplied
`sobjects`: set `RecordIndex = i + startIndex` and `SObject = sobjects[i]`;
out of range, the element is untouched. -/
def updOp (startIndex : Nat) (sobjects : List SObject) (i : Nat)
    (op : OpResponse) : OpResponse :=
  if i < sobjects.length then
    { op with recordIndex := i + startIndex, sobject := sobjects.get? i }
  else op

/-- The loop of `OpResponses.Errors` (`composite.go` lines 198-210), carrying
the running index `i`.  The first component is the receiver slice's contents
after the call (the assignments `oprs[i].RecordIndex = ...` and
`oprs[i].SObject = ...` mutate it in place); the second is the returned
`errReponses` list, to which the (possibly updated) element is appended for
every unsuccessful response. -/
def errorsAux (startIndex : Nat) (sobjects : List SObject) :
    Nat → List OpResponse → List OpResponse × List OpResponse
  | _, [] => ([], [])
  | i, op :: rest =>
    let op' :=
      if op.success then op
      else if i < sobjects.length then
        { op with recordIndex := i + startIndex, sobject := sobjects.get? i }
      else op
    let p := errorsAux startIndex sobjects (i + 1) rest
    (op' :: p.1, if op.success then p.2 else op' :: p.2)

/-- `OpResponses.Errors`: returns (post-state of the receiver, returned
failure list). -/
def OpResponses.Errors (oprs : List OpResponse) (startIndex : Nat)
    (sobjects : List SObject) : List OpResponse × List OpResponse :=
  errorsAux startIndex sobjects 0 oprs

/-! ## Lemmas about the batch splitter -/

/-- The effective batch size of a collection call is always at least 1. -/
theorem maxBatchSize_pos (bsz : Nat) : 1 ≤ maxBatchSize false bsz := by
  unfold maxBatchSize
  simp only [if_false, Bool.false_eq_true]
  split
  · omega
  · split <;> omega

theorem chunksF_nil {α : Type} (fuel b : Nat) :
    chunksF fuel b ([] : List α) = [] := by
  cases fuel <;> rfl

theorem chunksF_cons {α : Type} (fuel b : Nat) (a : α) (t : List α) :
    chunksF (fuel + 1) b (a :: t)
      = (a :: t).take b :: chunksF fuel b ((a :: t).drop b) := rfl

theorem chunksF_join {α : Type} :
    ∀ (fuel b : Nat) (l : List α), 1 ≤ b → l.length ≤ fuel →
      (chunksF fuel b l).flatten = l
  | _, _, [], _, _ => by rw [chunksF_nil]; rfl
  | 0, _, a :: t, _, hl => by simp at hl
  | fuel + 1, b, a :: t, hb, hl => by
      rw [chunksF_cons]
      have hd : ((a :: t).drop b).length ≤ fuel := by
        rw [List.length_drop]; simp only [List.length_cons] at hl ⊢; omega
      rw [List.flatten_cons, chunksF_join fuel b _ hb hd, List.take_append_drop]

theorem chunksF_length {α : Type} :
    ∀ (fuel b : Nat) (l : List α), 1 ≤ b → l.length ≤ fuel →
      (chunksF fuel b l).length = (l.length + b - 1) / b
  | _, b, [], hb, _ => by
      rw [chunksF_nil]
      simp [Nat.div_eq_of_lt (show b - 1 < b by omega)]
  | 0, _, a :: t, _, hl => by simp at hl
  | fuel + 1, b, a :: t, hb, hl => by
      rw [chunksF_cons]
      have hn : (a :: t).length = t.length + 1 := List.length_cons a t
      by_cases hle : (a :: t).length ≤ b
      · have hdrop : (a :: t).drop b = [] :=
          List.drop_eq_nil_iff.2 hle
        rw [hdrop, chunksF_nil, hn]
        rw [hn] at hle
        show 0 + 1 = (t.length + 1 + b - 1) / b
        rw [Nat.zero_add]
        exact (Nat.div_eq_of_lt_le (by omega) (by omega)).symm
      · have hd : ((a :: t).drop b).length ≤ fuel := by
          rw [List.length_drop]; simp only [List.length_cons] at hl ⊢; omega
        have ih := chunksF_length fuel b ((a :: t).drop b) hb hd
        rw [List.length_cons, ih, List.length_drop]
        have hgt : b < (a :: t).length := by omega
        have h1 : (a :: t).length + b - 1 = ((a :: t).length - 1) + b := by omega
        have h2 : (a :: t).length - b + b - 1 = (a :: t).length - 1 := by omega
        rw [h1, h2, Nat.add_div_right _ (by omega)]

theorem chunksF_mem_length_le {α : Type} :
    ∀ (fuel b : Nat) (l : List α) (c : List α),
      c ∈ chunksF fuel b l → c.length ≤ b
  | 0, _, _, c, hc => by simp [chunksF] at hc
  | _ + 1, _, [], c, hc => by simp [chunksF] at hc
  | fuel + 1, b, a :: t, c, hc => by
      rw [chunksF_cons] at hc
      rcases List.mem_cons.1 hc with hc | hc
      · subst hc; simp only [List.length_take]; exact Nat.min_le_left b _
      · exact chunksF_mem_length_le fuel b _ c hc

theorem chunksF_take_join_length {α : Type} :
    ∀ (fuel b : Nat) (l : List α) (j : Nat), 1 ≤ b → l.length ≤ fuel →
      j < (chunksF fuel b l).length →
      (((chunksF fuel b l).take j).flatten).length = j * b
  | _, _, _, 0, _, _, _ => by simp
  | 0, _, l, j + 1, _, hl, hj => by
      rw [List.length_eq_zero.1 (Nat.le_zero.1 hl), chunksF_nil] at hj
      simp at hj
  | fuel + 1, b, l, j + 1, hb, hl, hj => by
      match l, hl with
      | [], _ => rw [chunksF_nil] at hj; simp at hj
      | a :: t, hl =>
        rw [chunksF_cons] at hj ⊢
        rw [List.length_cons] at hj
        have hjr : j < (chunksF fuel b ((a :: t).drop b)).length := by omega
        have hrne : chunksF fuel b ((a :: t).drop b) ≠ [] := by
          intro h; rw [h] at hjr; simp at hjr
        have hdne : (a :: t).drop b ≠ [] := by
          intro h; rw [h, chunksF_nil] at hrne; exact hrne rfl
        have hblt : b < (a :: t).length := by
          by_contra h
          exact hdne (List.drop_eq_nil_iff.2 (by omega))
        have htk : ((a :: t).take b).length = b := by
          rw [List.length_take]; omega
        have hd : ((a :: t).drop b).length ≤ fuel := by
          rw [List.length_drop]; simp only [List.length_cons] at hl ⊢; omega
        have ih := chunksF_take_join_length fuel b ((a :: t).drop b) j hb hd hjr
        rw [List.take_succ_cons, List.flatten_cons, List.length_append, htk, ih]
        ring

theorem batches_length {α : Type} (b : Nat) (l : List α) :
    (batches b l).length = (chunksF l.length b l).length := by
  simp only [batches, List.length_map, List.enum_length]

theorem batches_map_snd {α : Type} (b : Nat) (l : List α) :
    (batches b l).map Prod.snd = chunksF l.length b l := by
  simp only [batches, List.map_map]
  exact List.enum_map_snd _

theorem batches_getElem_fst {α : Type} (b : Nat) (l : List α) (j : Nat)
    (hj : j < (batches b l).length) :
    (batches b l)[j].1 = j * b := by
  simp only [batches, List.length_map, List.enum_length] at hj
  simp only [batches, List.getElem_map, List.getElem_enum]

/-! ## Lemmas about the collection-write loops -/

/-- Evaluates a batch-list prefix on which the `CompositeCall` loop keeps
going: every transport call succeeds and the hook (when configured) returns
nil.  Returns the concatenation of the per-batch responses, or `none` when
the loop would stop somewhere inside the prefix. -/
def ccRunOk (allOrNone : Bool) (path method : String) (tr : CompositeTransport)
    (lg : Option Logger) :
    List (Nat × List SObject) → Nat → Option (List OpResponse)
  | [], _ => some []
  | (off, batch) :: rest, k =>
    match tr k path method ⟨allOrNone, tagBatch batch⟩ with
    | .error _ => none
    | .ok res =>
      match lg with
      | none =>
          (ccRunOk allOrNone path method tr lg rest (k + 1)).map
            (fun outs => res ++ outs)
      | some l =>
        match l off (tagBatch batch) res with
        | some _ => none
        | none =>
            (ccRunOk allOrNone path method tr lg rest (k + 1)).map
              (fun outs => res ++ outs)

theorem ccRun_stop_transport (a : Bool) (p m : String)
    (tr : CompositeTransport) (lg : Option Logger) (off : Nat)
    (batch : List SObject) (bs : List (Nat × List SObject)) (k : Nat)
    (acc : List OpResponse) (calls : List CompositeCallRec) (e : Err)
    (htr : tr k p m ⟨a, tagBatch batch⟩ = .error e) :
    ccRun a p m tr lg ((off, batch) :: bs) k acc calls
      = ⟨acc, some e, calls ++ [⟨p, m, ⟨a, tagBatch batch⟩⟩]⟩ := by
  simp only [ccRun, htr]

theorem ccRun_stop_hook (a : Bool) (p m : String) (tr : CompositeTransport)
    (l : Logger) (off : Nat) (batch : List SObject)
    (bs : List (Nat × List SObject)) (k : Nat) (acc : List OpResponse)
    (calls : List CompositeCallRec) (res : List OpResponse) (e : Err)
    (htr : tr k p m ⟨a, tagBatch batch⟩ = .ok res)
    (hlg : l off (tagBatch batch) res = some e) :
    ccRun a p m tr (some l) ((off, batch) :: bs) k acc calls
      = ⟨acc ++ res, some e, calls ++ [⟨p, m, ⟨a, tagBatch batch⟩⟩]⟩ := by
  simp only [ccRun, htr, hlg]

theorem ccRun_append_of_ok (a : Bool) (p m : String) (tr : CompositeTransport)
    (lg : Option Logger) :
    ∀ (bs1 : List (Nat × List SObject)) (outs : List OpResponse)
      (bs2 : List (Nat × List SObject)) (k : Nat) (acc : List OpResponse)
      (calls : List CompositeCallRec),
      ccRunOk a p m tr lg bs1 k = some outs →
      ccRun a p m tr lg (bs1 ++ bs2) k acc calls
        = ccRun a p m tr lg bs2 (k + bs1.length) (acc ++ outs)
            (calls ++ bs1.map (ccCallRec a p m))
  | [], outs, bs2, k, acc, calls, h => by
      simp only [ccRunOk, Option.some.injEq] at h
      subst h
      simp
  | (off, batch) :: rest, outs, bs2, k, acc, calls, h => by
      simp only [ccRunOk] at h
      cases htr : tr k p m ⟨a, tagBatch batch⟩ with
      | error e => simp only [htr] at h; exact Option.noConfusion h
      | ok res =>
        simp only [htr] at h
        cases lg with
        | none =>
          simp only [Option.map_eq_some'] at h
          obtain ⟨outs', houts', rfl⟩ := h
          have hrec := ccRun_append_of_ok a p m tr none rest outs' bs2 (k + 1)
            (acc ++ res) (calls ++ [⟨p, m, ⟨a, tagBatch batch⟩⟩]) houts'
          rw [List.cons_append]
          simp only [ccRun, htr]
          rw [hrec]
          simp only [List.length_cons, List.map_cons, ccCallRec,
            List.append_assoc, List.singleton_append]
          rw [show k + 1 + rest.length = k + (rest.length + 1) from by omega]
        | some l =>
          cases hlg : l off (tagBatch batch) res with
          | some e => simp only [hlg] at h; exact Option.noConfusion h
          | none =>
            simp only [hlg, Option.map_eq_some'] at h
            obtain ⟨outs', houts', rfl⟩ := h
            have hrec := ccRun_append_of_ok a p m tr (some l) rest outs' bs2
              (k + 1) (acc ++ res) (calls ++ [⟨p, m, ⟨a, tagBatch batch⟩⟩])
              houts'
            rw [List.cons_append]
            simp only [ccRun, htr, hlg]
            rw [hrec]
            simp only [List.length_cons, List.map_cons, ccCallRec,
              List.append_assoc, List.singleton_append]
            rw [show k + 1 + rest.length = k + (rest.length + 1) from by omega]

theorem ccRun_done_of_ok (a : Bool) (p m : String) (tr : CompositeTransport)
    (lg : Option Logger) (bs : List (Nat × List SObject))
    (outs : List OpResponse) (k : Nat) (acc : List OpResponse)
    (calls : List CompositeCallRec)
    (h : ccRunOk a p m tr lg bs k = some outs) :
    ccRun a p m tr lg bs k acc calls
      = ⟨acc ++ outs, none, calls ++ bs.map (ccCallRec a p m)⟩ := by
  have := ccRun_append_of_ok a p m tr lg bs outs [] k acc calls h
  rw [List.append_nil] at this
  rw [this]
  rfl

/-- With a transport that always succeeds, the `CompositeCall` loop with no
logger runs every batch. -/
theorem ccRunOk_total (a : Bool) (p m : String) (tr : CompositeTransport)
    (res : Nat → List OpResponse)
    (htr : ∀ k body, tr k p m body = .ok (res k)) :
    ∀ (bs : List (Nat × List SObject)) (k : Nat),
      ∃ outs, ccRunOk a p m tr none bs k = some outs
  | [], _ => ⟨[], rfl⟩
  | (off, batch) :: rest, k => by
      obtain ⟨outs', h'⟩ := ccRunOk_total a p m tr res htr rest (k + 1)
      refine ⟨res k ++ outs', ?_⟩
      simp only [ccRunOk, htr k ⟨a, tagBatch batch⟩, h', Option.map_some']

/-- Any error-free completion of the `CompositeCall` loop returns the
accumulator extended by responses aligned, batch by batch, with the tagged
records submitted to the transport. -/
theorem ccRun_none_forall2 (a : Bool) (p m : String) (tr : CompositeTransport)
    (lg : Option Logger) (R : SObject → OpResponse → Prop)
    (htr : ∀ k body res, tr k p m body = .ok res →
      List.Forall₂ R body.records res) :
    ∀ (bs : List (Nat × List SObject)) (k : Nat) (acc : List OpResponse)
      (calls : List CompositeCallRec) (outs : List OpResponse)
      (calls' : List CompositeCallRec),
      ccRun a p m tr lg bs k acc calls = ⟨outs, none, calls'⟩ →
      ∃ rest, outs = acc ++ rest ∧
        List.Forall₂ R ((bs.map (fun pb => tagBatch pb.2)).flatten) rest
  | [], k, acc, calls, outs, calls', h => by
      simp only [ccRun, EngineResult.mk.injEq] at h
      exact ⟨[], by simp [h.1.symm], by simp [List.Forall₂.nil]⟩
  | (off, batch) :: rest, k, acc, calls, outs, calls', h => by
      cases htrk : tr k p m ⟨a, tagBatch batch⟩ with
      | error e =>
        rw [ccRun_stop_transport a p m tr lg off batch rest k acc calls e htrk]
          at h
        simp only [EngineResult.mk.injEq] at h
        exact absurd h.2.1 (by simp)
      | ok res =>
        have hR : List.Forall₂ R (tagBatch batch) res :=
          htr k ⟨a, tagBatch batch⟩ res htrk
        have hnext : ccRun a p m tr lg rest (k + 1) (acc ++ res)
            (calls ++ [⟨p, m, ⟨a, tagBatch batch⟩⟩]) = ⟨outs, none, calls'⟩ := by
          cases lg with
          | none => simpa only [ccRun, htrk] using h
          | some l =>
            cases hlg : l off (tagBatch batch) res with
            | some e =>
              rw [ccRun_stop_hook a p m tr l off batch rest k acc calls res e
                htrk hlg] at h
              simp only [EngineResult.mk.injEq] at h
              exact absurd h.2.1 (by simp)
            | none => simpa only [ccRun, htrk, hlg] using h
        obtain ⟨rest2, hrest2, hF⟩ := ccRun_none_forall2 a p m tr lg R htr rest
          (k + 1) (acc ++ res) (calls ++ [⟨p, m, ⟨a, tagBatch batch⟩⟩]) outs
          calls' hnext
        refine ⟨res ++ rest2, by simp [hrest2, List.append_assoc], ?_⟩
        simp only [List.map_cons, List.flatten_cons]
        exact List.rel_append hR hF

/-! ## Lemmas about the paginated query reader -/

/-- Concatenation of the rows of pages `k, k+1, ..., k+n-1`. -/
def pageRows {α : Type} (pages : Nat → Page α) (k n : Nat) : List α :=
  ((List.range n).map (fun j => (pages (k + j)).rows)).flatten

theorem pageRows_zero {α : Type} (pages : Nat → Page α) (k : Nat) :
    pageRows pages k 0 = [] := rfl

theorem pageRows_one {α : Type} (pages : Nat → Page α) (k : Nat) :
    pageRows pages k 1 = (pages k).rows := by
  show ((List.range 1).map (fun j => (pages (k + j)).rows)).flatten
    = (pages k).rows
  rw [List.range_succ, List.range_zero]
  simp

theorem pageRows_succ_left {α : Type} (pages : Nat → Page α) (k n : Nat) :
    pageRows pages k (n + 1) = (pages k).rows ++ pageRows pages (k + 1) n := by
  simp only [pageRows, List.range_succ_eq_map, List.map_cons, List.map_map,
    List.flatten_cons, Nat.add_zero]
  have hfun : ((fun j => (pages (k + j)).rows) ∘ Nat.succ)
      = (fun j => (pages (k + 1 + j)).rows) := by
    funext j
    show (pages (k + Nat.succ j)).rows = (pages (k + 1 + j)).rows
    rw [show k + Nat.succ j = k + 1 + j from by omega]
  rw [hfun]

/-- Once an appended page makes the accumulator reach a positive row cap,
the query loop slices the accumulator to the cap and returns nil,
irrespective of any done flags. -/
theorem queryRun_cap_aux {α : Type} (C : Nat) (server : Nat → Except Err (Page α))
    (pages : Nat → Page α) (hs : ∀ k, server k = .ok (pages k)) (hC : 0 < C) :
    ∀ (m fuel k : Nat) (acc : List α), m < fuel →
      (∀ j, j < m → (acc ++ pageRows pages k (j + 1)).length < C ∧
        (pages (k + j)).done = false) →
      C ≤ (acc ++ pageRows pages k (m + 1)).length →
      queryRun C server fuel k acc
        = .ok ((acc ++ pageRows pages k (m + 1)).take C)
  | 0, fuel + 1, k, acc, _, _, hcap => by
      simp only [queryRun, hs k, recordSliceUnmarshal]
      rw [pageRows_one] at hcap
      rw [if_pos ⟨hC, hcap⟩, pageRows_one]
  | m + 1, fuel + 1, k, acc, hfuel, hbefore, hcap => by
      have hstep : ∀ n, acc ++ pageRows pages k (n + 1)
          = (acc ++ (pages k).rows) ++ pageRows pages (k + 1) n := by
        intro n
        rw [pageRows_succ_left]
        exact (List.append_assoc _ _ _).symm
      have h0 := hbefore 0 (Nat.succ_pos m)
      rw [pageRows_one, Nat.add_zero] at h0
      simp only [queryRun, hs k, recordSliceUnmarshal]
      rw [if_neg (by push_neg; intro _; exact h0.1), h0.2,
        if_neg Bool.false_ne_true]
      have ih := queryRun_cap_aux C server pages hs hC m fuel (k + 1)
        (acc ++ (pages k).rows) (by omega)
        (fun j hj => by
          have hb := hbefore (j + 1) (by omega)
          rw [hstep (j + 1)] at hb
          exact ⟨hb.1, by rw [show k + 1 + j = k + (j + 1) from by omega]
                          exact hb.2⟩)
        (by rw [← hstep (m + 1)]; exact hcap)
      rw [ih, ← hstep (m + 1)]

/-- With no row cap configured, the query loop accumulates every page until
the first page whose done flag is set, then returns nil with the full
accumulation. -/
theorem queryRun_nocap_aux {α : Type} (server : Nat → Except Err (Page α))
    (pages : Nat → Page α) (hs : ∀ k, server k = .ok (pages k)) :
    ∀ (m fuel k : Nat) (acc : List α), m < fuel →
      (∀ j, j < m → (pages (k + j)).done = false) →
      (pages (k + m)).done = true →
      queryRun 0 server fuel k acc = .ok (acc ++ pageRows pages k (m + 1))
  | 0, fuel + 1, k, acc, _, _, hdone => by
      simp only [queryRun, hs k, recordSliceUnmarshal]
      rw [if_neg (by push_neg; intro h; omega)]
      rw [Nat.add_zero] at hdone
      rw [hdone, if_pos rfl, pageRows_one]
  | m + 1, fuel + 1, k, acc, hfuel, hbefore, hdone => by
      simp only [queryRun, hs k, recordSliceUnmarshal]
      have h0 := hbefore 0 (Nat.succ_pos m)
      rw [Nat.add_zero] at h0
      rw [if_neg (by push_neg; intro h; omega), h0,
        if_neg Bool.false_ne_true]
      have ih := queryRun_nocap_aux server pages hs m fuel (k + 1)
        (acc ++ (pages k).rows) (by omega)
        (fun j hj => by
          have hb := hbefore (j + 1) (by omega)
          rw [show k + (j + 1) = k + 1 + j from by omega] at hb
          exact hb)
        (by rw [show k + 1 + m = k + (m + 1) from by omega]; exact hdone)
      rw [ih, List.append_assoc, ← pageRows_succ_left]

/-! ## Lemmas about `OpResponses.Errors` -/

theorem updOp_success (s : Nat) (so : List SObject) (i : Nat)
    (op : OpResponse) : (updOp s so i op).success = op.success := by
  unfold updOp
  split <;> rfl

theorem errorsAux_snd (s : Nat) (so : List SObject) :
    ∀ (l : List OpResponse) (i : Nat),
      (errorsAux s so i l).2
        = ((List.enumFrom i l).filter (fun p => !p.2.success)).map
            (fun p => updOp s so p.1 p.2)
  | [], _ => rfl
  | op :: rest, i => by
      have ih := errorsAux_snd s so rest (i + 1)
      cases hsu : op.success with
      | true =>
        simp only [errorsAux, hsu, if_true, List.enumFrom_cons,
          List.filter_cons, Bool.not_true, ih]
        simp
      | false =>
        simp only [errorsAux, hsu, if_false, List.enumFrom_cons,
          List.filter_cons, Bool.not_false, List.map_cons, ih, updOp,
          Bool.false_eq_true]
        rw [if_pos trivial]
        simp [hsu]

theorem errorsAux_fst (s : Nat) (so : List SObject) :
    ∀ (l : List OpResponse) (i : Nat),
      (errorsAux s so i l).1
        = (List.enumFrom i l).map
            (fun p => if p.2.success then p.2 else updOp s so p.1 p.2)
  | [], _ => rfl
  | op :: rest, i => by
      have ih := errorsAux_fst s so rest (i + 1)
      cases hsu : op.success with
      | true =>
        simp only [errorsAux, hsu, if_true, List.enumFrom_cons,
          List.map_cons, ih]
      | false =>
        simp only [errorsAux, hsu, if_false, List.enumFrom_cons,
          List.map_cons, ih, updOp, Bool.false_eq_true]

theorem errorsAux_shares (s : Nat) (so : List SObject) (l : List OpResponse)
    (i : Nat) :
    (errorsAux s so i l).2
      = (errorsAux s so i l).1.filter (fun op => !op.success) := by
  rw [errorsAux_snd, errorsAux_fst, List.filter_map]
  have hcond : ∀ p : Nat × OpResponse,
      ((fun op => !op.success) ∘
        (fun p : Nat × OpResponse =>
          if p.2.success then p.2 else updOp s so p.1 p.2)) p
        = !p.2.success := by
    intro p
    by_cases h : p.2.success
    · simp [Function.comp, h]
    · simp [Function.comp, h, updOp_success]
  rw [List.filter_congr (fun p _ => hcond p)]
  apply List.map_congr_left
  intro p hp
  have hns : ¬ p.2.success = true := by
    have := List.of_mem_filter hp
    simpa using this
  simp [hns]

/-! ## Lemmas about the delete loop -/

/-- Delete-side analogue of `ccRunOk`. -/
def drRunOk (tr : DeleteTransport) (lg : Option Logger) :
    List (Nat × List String) → Nat → Option (List OpResponse)
  | [], _ => some []
  | (off, ids) :: rest, k =>
    match tr k (delPath ids) "DELETE" with
    | .error _ => none
    | .ok res =>
      match lg with
      | none => (drRunOk tr lg rest (k + 1)).map (fun outs => res ++ outs)
      | some l =>
        match l off (ids.map SObject.deleteID) res with
        | some _ => none
        | none => (drRunOk tr lg rest (k + 1)).map (fun outs => res ++ outs)

theorem drRun_stop_transport (tr : DeleteTransport) (lg : Option Logger)
    (off : Nat) (ids : List String) (bs : List (Nat × List String)) (k : Nat)
    (acc : List OpResponse) (calls : List DeleteCallRec) (e : Err)
    (htr : tr k (delPath ids) "DELETE" = .error e) :
    drRun tr lg ((off, ids) :: bs) k acc calls
      = ⟨acc, some e, calls ++ [⟨delPath ids, "DELETE"⟩]⟩ := by
  simp only [drRun, htr]

theorem drRun_stop_hook (tr : DeleteTransport) (l : Logger) (off : Nat)
    (ids : List String) (bs : List (Nat × List String)) (k : Nat)
    (acc : List OpResponse) (calls : List DeleteCallRec)
    (res : List OpResponse) (e : Err)
    (htr : tr k (delPath ids) "DELETE" = .ok res)
    (hlg : l off (ids.map SObject.deleteID) res = some e) :
    drRun tr (some l) ((off, ids) :: bs) k acc calls
      = ⟨[], some e, calls ++ [⟨delPath ids, "DELETE"⟩]⟩ := by
  simp only [drRun, htr, hlg]

theorem drRun_append_of_ok (tr : DeleteTransport) (lg : Option Logger) :
    ∀ (bs1 : List (Nat × List String)) (outs : List OpResponse)
      (bs2 : List (Nat × List String)) (k : Nat) (acc : List OpResponse)
      (calls : List DeleteCallRec),
      drRunOk tr lg bs1 k = some outs →
      drRun tr lg (bs1 ++ bs2) k acc calls
        = drRun tr lg bs2 (k + bs1.length) (acc ++ outs)
            (calls ++ bs1.map (fun pb => ⟨delPath pb.2, "DELETE"⟩))
  | [], outs, bs2, k, acc, calls, h => by
      simp only [drRunOk, Option.some.injEq] at h
      subst h
      simp
  | (off, ids) :: rest, outs, bs2, k, acc, calls, h => by
      simp only [drRunOk] at h
      cases htr : tr k (delPath ids) "DELETE" with
      | error e => simp only [htr] at h; exact Option.noConfusion h
      | ok res =>
        simp only [htr] at h
        cases lg with
        | none =>
          simp only [Option.map_eq_some'] at h
          obtain ⟨outs', houts', rfl⟩ := h
          have hrec := drRun_append_of_ok tr none rest outs' bs2 (k + 1)
            (acc ++ res) (calls ++ [⟨delPath ids, "DELETE"⟩]) houts'
          rw [List.cons_append]
          simp only [drRun, htr]
          rw [hrec]
          simp only [List.length_cons, List.map_cons, List.append_assoc,
            List.singleton_append]
          rw [show k + 1 + rest.length = k + (rest.length + 1) from by omega]
        | some l =>
          cases hlg : l off (ids.map SObject.deleteID) res with
          | some e => simp only [hlg] at h; exact Option.noConfusion h
          | none =>
            simp only [hlg, Option.map_eq_some'] at h
            obtain ⟨outs', houts', rfl⟩ := h
            have hrec := drRun_append_of_ok tr (some l) rest outs' bs2 (k + 1)
              (acc ++ res) (calls ++ [⟨delPath ids, "DELETE"⟩]) houts'
            rw [List.cons_append]
            simp only [drRun, htr, hlg]
            rw [hrec]
            simp only [List.length_cons, List.map_cons, List.append_assoc,
              List.singleton_append]
            rw [show k + 1 + rest.length = k + (rest.length + 1) from by omega]

theorem drRun_done_of_ok (tr : DeleteTransport) (lg : Option Logger)
    (bs : List (Nat × List String)) (outs : List OpResponse) (k : Nat)
    (acc : List OpResponse) (calls : List DeleteCallRec)
    (h : drRunOk tr lg bs k = some outs) :
    drRun tr lg bs k acc calls
      = ⟨acc ++ outs, none,
          calls ++ bs.map (fun pb => ⟨delPath pb.2, "DELETE"⟩)⟩ := by
  have := drRun_append_of_ok tr lg bs outs [] k acc calls h
  rw [List.append_nil] at this
  rw [this]
  rfl

/-- Any error-free completion of the `DeleteRecords` loop returns the
accumulator extended by responses aligned, batch by batch, with the ids
submitted in the path. -/
theorem drRun_none_forall2 (tr : DeleteTransport) (lg : Option Logger)
    (R : String → OpResponse → Prop) :
    ∀ (bs : List (Nat × List String)) (k : Nat) (acc : List OpResponse)
      (calls : List DeleteCallRec) (outs : List OpResponse)
      (calls' : List DeleteCallRec),
      (∀ pb, pb ∈ bs → ∀ j res, tr j (delPath pb.2) "DELETE" = .ok res →
        List.Forall₂ R pb.2 res) →
      drRun tr lg bs k acc calls = ⟨outs, none, calls'⟩ →
      ∃ rest, outs = acc ++ rest ∧
        List.Forall₂ R ((bs.map Prod.snd).flatten) rest
  | [], k, acc, calls, outs, calls', _, h => by
      simp only [drRun, EngineResult.mk.injEq] at h
      exact ⟨[], by simp [h.1.symm], by simp [List.Forall₂.nil]⟩
  | (off, ids) :: rest, k, acc, calls, outs, calls', htr, h => by
      cases htrk : tr k (delPath ids) "DELETE" with
      | error e =>
        rw [drRun_stop_transport tr lg off ids rest k acc calls e htrk] at h
        simp only [EngineResult.mk.injEq] at h
        exact absurd h.2.1 (by simp)
      | ok res =>
        have hR : List.Forall₂ R ids res :=
          htr (off, ids) (List.mem_cons_self _ _) k res htrk
        have hnext : drRun tr lg rest (k + 1) (acc ++ res)
            (calls ++ [⟨delPath ids, "DELETE"⟩]) = ⟨outs, none, calls'⟩ := by
          cases lg with
          | none => simpa only [drRun, htrk] using h
          | some l =>
            cases hlg : l off (ids.map SObject.deleteID) res with
            | some e =>
              rw [drRun_stop_hook tr l off ids rest k acc calls res e htrk
                hlg] at h
              simp only [EngineResult.mk.injEq] at h
              exact absurd h.2.1 (by simp)
            | none => simpa only [drRun, htrk, hlg] using h
        obtain ⟨rest2, hrest2, hF⟩ := drRun_none_forall2 tr lg R rest
          (k + 1) (acc ++ res) (calls ++ [⟨delPath ids, "DELETE"⟩]) outs
          calls' (fun pb hpb => htr pb (List.mem_cons_of_mem _ hpb)) hnext
        refine ⟨res ++ rest2, by simp [hrest2, List.append_assoc], ?_⟩
        simp only [List.map_cons, List.flatten_cons]
        exact List.rel_append hR hF

/-! ## Concrete fixtures used by witnesses and counterexamples -/

/-- A successful `OpResponse`, as a server would return it. -/
def opOkW : OpResponse := ⟨"001000000000001", true, [], true, 0, none⟩

/-- An unsuccessful `OpResponse`, as a server would return it. -/
def opFailW : OpResponse :=
  ⟨"", false, [⟨"DUPLICATE_VALUE", "duplicate value", ["External_PID__c"]⟩],
    false, 0, none⟩

/-- A generated-struct record. -/
def r1W : SObject := .structRec "Contact" none

/-- Another generated-struct record, with attributes already set. -/
def r2W : SObject := .structRec "Contact" (some ⟨"Contact", "u", "x"⟩)

/-- A composite transport answering every call with one successful
response. -/
def trOkCW : CompositeTransport := fun _ _ _ _ => .ok [opOkW]

/-- A delete transport answering every call with one successful response. -/
def trOkDW : DeleteTransport := fun _ _ _ => .ok [opOkW]

/-- A composite transport that succeeds on the first call and fails on every
later one. -/
def trFail2CW : CompositeTransport := fun k _ _ _ =>
  if k = 0 then .ok [opOkW] else .error (.other "transport down")

/-- A delete transport that succeeds on the first call and fails on every
later one. -/
def trFail2DW : DeleteTransport := fun k _ _ =>
  if k = 0 then .ok [opOkW] else .error (.other "transport down")

/-- A logging hook that passes the first batch (offset 0) and aborts on any
later batch. -/
def lgStopW : Logger := fun off _ _ =>
  if off = 0 then none else some (.other "stop")

/-- A logging hook that aborts immediately. -/
def lgFailW : Logger := fun _ _ _ => some (.other "hook failure")

/-! ## Claims -/

/-- C1 (counterexample): the claim asserts that every collection-write
operation, when the logging hook errs after batch k, returns the hook's
error together with the outcomes of batches 1..k.  `DeleteRecords` violates
it: with a one-batch call whose transport returned one outcome, a failing
hook makes `DeleteRecords` return a nil aggregate (`return nil, err`), not
the outcomes of batch 1. -/
theorem C1_counterexample :
    trOkDW 0 (delPath ["003xx0000001"]) "DELETE" = Except.ok [opOkW]
    ∧ deleteRecords 200 trOkDW (some lgFailW) ["003xx0000001"]
        = ⟨[], some (.other "hook failure"),
            [⟨delPath ["003xx0000001"], "DELETE"⟩]⟩
    ∧ ([] : List OpResponse) ≠ [opOkW] := by
  refine ⟨rfl, rfl, by decide⟩

/-- C1 (amended): if the logging hook errs after batch k (1-indexed), every
collection-write operation stops at once — the transport calls issued are
exactly those for batches 1..k — and returns the hook's error unchanged.
`createMany`/`updateMany`/`upsertMany` (`CompositeCall`) return the
aggregate of the outcomes of batches 1..k alongside the error; `deleteMany`
instead discards the collected outcomes and returns a nil aggregate. -/
theorem C1_hook_error_behavior :
    (∀ (bsz : Nat) (tr : CompositeTransport) (l : Logger) (a : Bool)
       (p m : String) (recs : List SObject) (bs1 : List (Nat × List SObject))
       (off : Nat) (batch : List SObject) (bs2 : List (Nat × List SObject))
       (outs res : List OpResponse) (e : Err),
       recs.length ≠ 0 →
       batches (maxBatchSize false bsz) recs = bs1 ++ (off, batch) :: bs2 →
       ccRunOk a p m tr (some l) bs1 0 = some outs →
       tr bs1.length p m ⟨a, tagBatch batch⟩ = .ok res →
       l off (tagBatch batch) res = some e →
       compositeCall bsz tr (some l) a p m recs
         = ⟨outs ++ res, some e,
             bs1.map (ccCallRec a p m) ++ [⟨p, m, ⟨a, tagBatch batch⟩⟩]⟩)
    ∧
    (∀ (bsz : Nat) (tr : DeleteTransport) (l : Logger) (ids : List String)
       (bs1 : List (Nat × List String)) (off : Nat) (batch : List String)
       (bs2 : List (Nat × List String)) (outs res : List OpResponse)
       (e : Err),
       ids.length ≠ 0 →
       batches (maxBatchSize false bsz) ids = bs1 ++ (off, batch) :: bs2 →
       drRunOk tr (some l) bs1 0 = some outs →
       tr bs1.length (delPath batch) "DELETE" = .ok res →
       l off (batch.map SObject.deleteID) res = some e →
       deleteRecords bsz tr (some l) ids
         = ⟨[], some e,
             bs1.map (fun pb => ⟨delPath pb.2, "DELETE"⟩)
               ++ [⟨delPath batch, "DELETE"⟩]⟩) := by
  constructor
  · intro bsz tr l a p m recs bs1 off batch bs2 outs res e hne hsplit hok
      htr hlg
    rw [compositeCall, if_neg hne, hsplit]
    rw [ccRun_append_of_ok a p m tr (some l) bs1 outs ((off, batch) :: bs2)
      0 [] [] hok]
    simp only [Nat.zero_add, List.nil_append]
    exact ccRun_stop_hook a p m tr l off batch bs2 bs1.length outs
      (bs1.map (ccCallRec a p m)) res e htr hlg
  · intro bsz tr l ids bs1 off batch bs2 outs res e hne hsplit hok htr hlg
    rw [deleteRecords, if_neg hne, hsplit]
    rw [drRun_append_of_ok tr (some l) bs1 outs ((off, batch) :: bs2)
      0 [] [] hok]
    simp only [Nat.zero_add, List.nil_append]
    exact drRun_stop_hook tr l off batch bs2 bs1.length outs
      (bs1.map (fun pb => ⟨delPath pb.2, "DELETE"⟩)) res e htr hlg

/-- Witness for C1: two batches of size 1; the hook passes batch 1 and errs
on batch 2.  `CompositeCall` returns both batches' outcomes with the hook
error; `DeleteRecords` returns a nil aggregate; each issues exactly two
transport calls. -/
theorem C1_hook_error_behavior_witness :
    compositeCall 1 trOkCW (some lgStopW) false "composite/sobjects" "POST"
        [r1W, r2W]
      = ⟨[opOkW] ++ [opOkW], some (.other "stop"),
          [⟨"composite/sobjects", "POST", ⟨false, tagBatch [r1W]⟩⟩]
            ++ [⟨"composite/sobjects", "POST", ⟨false, tagBatch [r2W]⟩⟩]⟩
    ∧ deleteRecords 1 trOkDW (some lgStopW) ["ida", "idb"]
      = ⟨[], some (.other "stop"),
          [⟨delPath ["ida"], "DELETE"⟩] ++ [⟨delPath ["idb"], "DELETE"⟩]⟩ := by
  constructor
  · exact C1_hook_error_behavior.1 1 trOkCW lgStopW false
      "composite/sobjects" "POST" [r1W, r2W] [(0, [r1W])] 1 [r2W] []
      [opOkW] [opOkW] (.other "stop") (by decide) rfl rfl rfl rfl
  · exact C1_hook_error_behavior.2 1 trOkDW lgStopW ["ida", "idb"]
      [(0, ["ida"])] 1 ["idb"] [] [opOkW] [opOkW] (.other "stop")
      (by decide) rfl rfl rfl rfl

/-- C2 (confirmed): if the transport call for batch k fails, every
collection-write operation stops at once, returns the transport error
unchanged together with the aggregate of the outcomes of batches 1..k-1,
and the transport calls issued are exactly those for batches 1..k. -/
theorem C2_transport_error_behavior :
    (∀ (bsz : Nat) (tr : CompositeTransport) (lg : Option Logger) (a : Bool)
       (p m : String) (recs : List SObject) (bs1 : List (Nat × List SObject))
       (off : Nat) (batch : List SObject) (bs2 : List (Nat × List SObject))
       (outs : List OpResponse) (e : Err),
       recs.length ≠ 0 →
       batches (maxBatchSize false bsz) recs = bs1 ++ (off, batch) :: bs2 →
       ccRunOk a p m tr lg bs1 0 = some outs →
       tr bs1.length p m ⟨a, tagBatch batch⟩ = .error e →
       compositeCall bsz tr lg a p m recs
         = ⟨outs, some e,
             bs1.map (ccCallRec a p m) ++ [⟨p, m, ⟨a, tagBatch batch⟩⟩]⟩)
    ∧
    (∀ (bsz : Nat) (tr : DeleteTransport) (lg : Option Logger)
       (ids : List String) (bs1 : List (Nat × List String)) (off : Nat)
       (batch : List String) (bs2 : List (Nat × List String))
       (outs : List OpResponse) (e : Err),
       ids.length ≠ 0 →
       batches (maxBatchSize false bsz) ids = bs1 ++ (off, batch) :: bs2 →
       drRunOk tr lg bs1 0 = some outs →
       tr bs1.length (delPath batch) "DELETE" = .error e →
       deleteRecords bsz tr lg ids
         = ⟨outs, some e,
             bs1.map (fun pb => ⟨delPath pb.2, "DELETE"⟩)
               ++ [⟨delPath batch, "DELETE"⟩]⟩) := by
  constructor
  · intro bsz tr lg a p m recs bs1 off batch bs2 outs e hne hsplit hok htr
    rw [compositeCall, if_neg hne, hsplit]
    rw [ccRun_append_of_ok a p m tr lg bs1 outs ((off, batch) :: bs2)
      0 [] [] hok]
    simp only [Nat.zero_add, List.nil_append]
    exact ccRun_stop_transport a p m tr lg off batch bs2 bs1.length outs
      (bs1.map (ccCallRec a p m)) e htr
  · intro bsz tr lg ids bs1 off batch bs2 outs e hne hsplit hok htr
    rw [deleteRecords, if_neg hne, hsplit]
    rw [drRun_append_of_ok tr lg bs1 outs ((off, batch) :: bs2) 0 [] [] hok]
    simp only [Nat.zero_add, List.nil_append]
    exact drRun_stop_transport tr lg off batch bs2 bs1.length outs
      (bs1.map (fun pb => ⟨delPath pb.2, "DELETE"⟩)) e htr

/-- Witness for C2: two batches of size 1; the transport serves batch 1 and
fails on batch 2.  Both engines return batch 1's outcomes with the
transport error after exactly two transport calls. -/
theorem C2_transport_error_behavior_witness :
    compositeCall 1 trFail2CW none false "composite/sobjects" "PATCH"
        [r1W, r2W]
      = ⟨[opOkW], some (.other "transport down"),
          [⟨"composite/sobjects", "PATCH", ⟨false, tagBatch [r1W]⟩⟩]
            ++ [⟨"composite/sobjects", "PATCH", ⟨false, tagBatch [r2W]⟩⟩]⟩
    ∧ deleteRecords 1 trFail2DW none ["ida", "idb"]
      = ⟨[opOkW], some (.other "transport down"),
          [⟨delPath ["ida"], "DELETE"⟩] ++ [⟨delPath ["idb"], "DELETE"⟩]⟩ := by
  constructor
  · exact C2_transport_error_behavior.1 1 trFail2CW none false
      "composite/sobjects" "PATCH" [r1W, r2W] [(0, [r1W])] 1 [r2W] []
      [opOkW] (.other "transport down") (by decide) rfl rfl rfl
  · exact C2_transport_error_behavior.2 1 trFail2DW none ["ida", "idb"]
      [(0, ["ida"])] 1 ["idb"] [] [opOkW] (.other "transport down")
      (by decide) rfl rfl rfl

/-- C3 (confirmed): each of the four collection-write operations, invoked
with an empty entity/id list, returns the zero-record-guard error
`ErrZeroRecords` with a nil aggregate, and issues zero transport calls —
for every configuration, transport, logging hook, all-or-none flag and
external-id field. -/
theorem C3_zero_records_guard :
    ∀ (bsz : Nat) (tr : CompositeTransport) (trd : DeleteTransport)
      (lg : Option Logger) (a : Bool) (ext : String),
      createRecords bsz tr lg a [] = ⟨[], some .zeroRecords, []⟩
      ∧ updateRecords bsz tr lg a [] = ⟨[], some .zeroRecords, []⟩
      ∧ upsertRecords bsz tr lg a ext [] = ⟨[], some .zeroRecords, []⟩
      ∧ deleteRecords bsz trd lg [] = ⟨[], some .zeroRecords, []⟩ :=
  fun _ _ _ _ _ _ => ⟨rfl, rfl, rfl, rfl⟩

/-- C4 (confirmed): for every non-empty list of size N and effective batch
size B ≥ 1, the split yields exactly ⌈N/B⌉ batches, each of size at most B,
whose concatenation in order is the original list, and the offset attached
to each batch is the 0-based original-list index of its first element (the
length of the concatenation of the earlier batches).  Moreover the engine
issues exactly these batches: with an always-successful transport and no
logging hook, `CompositeCall`'s transport calls are the split batches,
tagged, in order. -/
theorem C4_split_spec :
    ∀ (b : Nat) (recs : List SObject), 1 ≤ b → recs ≠ [] →
      ((batches b recs).length = (recs.length + b - 1) / b
        ∧ (∀ pb ∈ batches b recs, pb.2.length ≤ b)
        ∧ ((batches b recs).map Prod.snd).flatten = recs
        ∧ ∀ j, (hj : j < (batches b recs).length) →
            (batches b recs)[j].1
              = (((batches b recs).take j).map Prod.snd).flatten.length)
      ∧ (∀ (bsz : Nat) (tr : CompositeTransport) (res : Nat → List OpResponse)
           (a : Bool) (p m : String),
           maxBatchSize false bsz = b →
           (∀ k body, tr k p m body = .ok (res k)) →
           (compositeCall bsz tr none a p m recs).calls
             = (batches b recs).map (ccCallRec a p m)) := by
  intro b recs hb hne
  constructor
  · refine ⟨?_, ?_, ?_, ?_⟩
    · rw [batches_length, chunksF_length recs.length b recs hb le_rfl]
    · intro pb hpb
      have hmem : pb.2 ∈ (batches b recs).map Prod.snd :=
        List.mem_map_of_mem Prod.snd hpb
      rw [batches_map_snd] at hmem
      exact chunksF_mem_length_le recs.length b recs pb.2 hmem
    · rw [batches_map_snd]
      exact chunksF_join recs.length b recs hb le_rfl
    · intro j hj
      rw [batches_getElem_fst b recs j hj, List.map_take, batches_map_snd]
      rw [batches_length] at hj
      exact (chunksF_take_join_length recs.length b recs j hb le_rfl hj).symm
  · intro bsz tr res a p m hbsz htr
    have hne' : ¬ recs.length = 0 := by
      rw [List.length_eq_zero]; exact hne
    rw [compositeCall, if_neg hne', hbsz]
    obtain ⟨outs, houts⟩ :=
      ccRunOk_total a p m tr res htr (batches b recs) 0
    rw [ccRun_done_of_ok a p m tr none (batches b recs) outs 0 [] [] houts]
    simp

/-- Witness for C4: five records split with effective batch size 2 into
three batches of sizes 2, 2, 1 — ⌈5/2⌉ = 3 — re-concatenating to the input,
and the engine issues exactly those batches. -/
theorem C4_split_spec_witness :
    (batches 2 [r1W, r2W, r1W, r2W, r1W]).length = (5 + 2 - 1) / 2
    ∧ ((batches 2 [r1W, r2W, r1W, r2W, r1W]).map Prod.snd).flatten
        = [r1W, r2W, r1W, r2W, r1W]
    ∧ (compositeCall 2 trOkCW none true "composite/sobjects" "POST"
        [r1W, r2W, r1W, r2W, r1W]).calls
        = (batches 2 [r1W, r2W, r1W, r2W, r1W]).map
            (ccCallRec true "composite/sobjects" "POST") := by
  have h := C4_split_spec 2 [r1W, r2W, r1W, r2W, r1W] (by decide) (by decide)
  exact ⟨h.1.1, h.1.2.2.1,
    h.2 2 trOkCW (fun _ => [opOkW]) true "composite/sobjects" "POST" rfl
      (fun _ _ => rfl)⟩

/-- C5 (confirmed): whenever a collection-write call completes without
error and each transport call answers the records it was sent with
outcomes related one-to-one, in order (`Forall₂`), the returned aggregate
is related one-to-one, in order, to the caller's input list (tagged, for
`CompositeCall`) — in particular the aggregate's length equals the input
length. -/
theorem C5_result_alignment :
    (∀ (bsz : Nat) (tr : CompositeTransport) (lg : Option Logger) (a : Bool)
       (p m : String) (recs : List SObject) (R : SObject → OpResponse → Prop)
       (outs : List OpResponse) (calls : List CompositeCallRec),
       (∀ k body res, tr k p m body = .ok res →
         List.Forall₂ R body.records res) →
       compositeCall bsz tr lg a p m recs = ⟨outs, none, calls⟩ →
       outs.length = recs.length
         ∧ List.Forall₂ R (recs.map (fun r => (r.withAttr "").1)) outs)
    ∧
    (∀ (bsz : Nat) (tr : DeleteTransport) (lg : Option Logger)
       (ids : List String) (R : String → OpResponse → Prop)
       (outs : List OpResponse) (calls : List DeleteCallRec),
       (∀ pb, pb ∈ batches (maxBatchSize false bsz) ids →
         ∀ j res, tr j (delPath pb.2) "DELETE" = .ok res →
           List.Forall₂ R pb.2 res) →
       deleteRecords bsz tr lg ids = ⟨outs, none, calls⟩ →
       outs.length = ids.length ∧ List.Forall₂ R ids outs) := by
  constructor
  · intro bsz tr lg a p m recs R outs calls htr hrun
    by_cases hne : recs.length = 0
    · rw [compositeCall, if_pos hne] at hrun
      simp only [EngineResult.mk.injEq] at hrun
      exact absurd hrun.2.1 (by simp)
    · rw [compositeCall, if_neg hne] at hrun
      obtain ⟨rest, hrest, hF⟩ := ccRun_none_forall2 a p m tr lg R htr
        (batches (maxBatchSize false bsz) recs) 0 [] [] outs calls hrun
      rw [List.nil_append] at hrest
      subst hrest
      have hflat :
          ((batches (maxBatchSize false bsz) recs).map
            (fun pb => tagBatch pb.2)).flatten
            = recs.map (fun r => (r.withAttr "").1) := by
        have hcomp :
            (batches (maxBatchSize false bsz) recs).map
              (fun pb => tagBatch pb.2)
              = ((batches (maxBatchSize false bsz) recs).map Prod.snd).map
                  (List.map (fun r => (r.withAttr "").1)) := by
          rw [List.map_map]
          rfl
        rw [hcomp, ← List.map_flatten, batches_map_snd,
          chunksF_join recs.length (maxBatchSize false bsz) recs
            (maxBatchSize_pos bsz) le_rfl]
      rw [hflat] at hF
      refine ⟨?_, hF⟩
      have := hF.length_eq
      rw [List.length_map] at this
      exact this.symm
  · intro bsz tr lg ids R outs calls htr hrun
    by_cases hne : ids.length = 0
    · rw [deleteRecords, if_pos hne] at hrun
      simp only [EngineResult.mk.injEq] at hrun
      exact absurd hrun.2.1 (by simp)
    · rw [deleteRecords, if_neg hne] at hrun
      obtain ⟨rest, hrest, hF⟩ := drRun_none_forall2 tr lg R
        (batches (maxBatchSize false bsz) ids) 0 [] [] outs calls htr hrun
      rw [List.nil_append] at hrest
      subst hrest
      rw [batches_map_snd,
        chunksF_join ids.length (maxBatchSize false bsz) ids
          (maxBatchSize_pos bsz) le_rfl] at hF
      exact ⟨hF.length_eq.symm, hF⟩

/-- A composite transport answering every call with one successful response
per record of the submitted body, in submission order. -/
def trMapCW : CompositeTransport := fun _ _ _ body =>
  .ok (body.records.map (fun _ => opOkW))

/-- Witness for C5: a two-record create (one batch) whose transport answers
one outcome per submitted record, and a one-id delete; in both, the
aggregate aligns with the input list. -/
theorem C5_result_alignment_witness :
    (([opOkW, opOkW] : List OpResponse).length = [r1W, r2W].length
      ∧ List.Forall₂ (fun _ o => o = opOkW)
          ([r1W, r2W].map (fun r => (r.withAttr "").1)) [opOkW, opOkW])
    ∧ (([opOkW] : List OpResponse).length = ["ida"].length
      ∧ List.Forall₂ (fun _ o => o = opOkW) ["ida"] [opOkW]) := by
  constructor
  · exact C5_result_alignment.1 0 trMapCW none false "composite/sobjects"
      "POST" [r1W, r2W] (fun _ o => o = opOkW) [opOkW, opOkW]
      [⟨"composite/sobjects", "POST", ⟨false, tagBatch [r1W, r2W]⟩⟩]
      (fun k body res h => by
        injection h with h'
        subst h'
        rw [List.forall₂_map_right_iff]
        exact List.forall₂_same.2 (fun x _ => rfl))
      rfl
  · exact C5_result_alignment.2 0 trOkDW none ["ida"] (fun _ o => o = opOkW)
      [opOkW] [⟨delPath ["ida"], "DELETE"⟩]
      (fun pb hpb j res h => by
        have hpb2 : pb ∈ [((0 : Nat), ["ida"])] := hpb
        have hpb' : pb = (0, ["ida"]) := List.mem_singleton.1 hpb2
        subst hpb'
        injection h with h'
        subst h'
        exact List.Forall₂.cons rfl List.Forall₂.nil)
      rfl

/-- C6 (confirmed): with a positive row cap C, as soon as appending a page
makes the accumulator reach or exceed C rows — with every earlier page
leaving it below C and not marked done — the query returns nil with the
accumulator sliced to exactly its first C rows in arrival order, no matter
what any page's done flag says. -/
theorem C6_row_cap :
    ∀ {α : Type} (C : Nat) (server : Nat → Except Err (Page α))
      (pages : Nat → Page α) (m fuel : Nat),
      0 < C →
      (∀ k, server k = .ok (pages k)) →
      (∀ j, j < m → (pageRows pages 0 (j + 1)).length < C
        ∧ (pages j).done = false) →
      C ≤ (pageRows pages 0 (m + 1)).length →
      m < fuel →
      query C server fuel = .ok ((pageRows pages 0 (m + 1)).take C)
      ∧ ((pageRows pages 0 (m + 1)).take C).length = C := by
  intro α C server pages m fuel hC hs hbefore hcap hfuel
  constructor
  · rw [query]
    have haux := queryRun_cap_aux C server pages hs hC m fuel 0 [] hfuel
      (fun j hj => by
        rw [List.nil_append]
        have h := hbefore j hj
        exact ⟨h.1, by rw [Nat.zero_add]; exact h.2⟩)
      (by rw [List.nil_append]; exact hcap)
    rw [List.nil_append] at haux
    exact haux
  · rw [List.length_take]
    omega

/-- The row-cap witness server: pages of sizes 2 and 2, never done. -/
def pagesW6 : Nat → Page Nat := fun k =>
  if k = 0 then ⟨[10, 20], false⟩ else ⟨[30, 40], false⟩

/-- Transport for the row-cap witness. -/
def serverW6 : Nat → Except Err (Page Nat) := fun k => .ok (pagesW6 k)

/-- Witness for C6: cap 3 against pages 2 + 2 whose done flag is never
true: the query returns exactly the first 3 rows. -/
theorem C6_row_cap_witness :
    query 3 serverW6 2 = .ok [10, 20, 30]
    ∧ ([10, 20, 30] : List Nat).length = 3 := by
  exact C6_row_cap 3 serverW6 pagesW6 1 2 (by decide) (fun k => rfl)
    (by decide) (by decide) (by decide)

/-- C7 (confirmed): the per-page decode appends the newly parsed rows to
the existing accumulator (never replacing it), and an uncapped query
against a server whose m-th page is the first marked done returns, with
nil error, the concatenation of the rows of pages 0..m in page order. -/
theorem C7_accretive_pages :
    (∀ {α : Type} (acc newRows : List α),
      recordSliceUnmarshal acc newRows = acc ++ newRows)
    ∧
    (∀ {α : Type} (server : Nat → Except Err (Page α))
       (pages : Nat → Page α) (m fuel : Nat),
       (∀ k, server k = .ok (pages k)) →
       (∀ j, j < m → (pages j).done = false) →
       (pages m).done = true →
       m < fuel →
       query 0 server fuel = .ok (pageRows pages 0 (m + 1))) := by
  constructor
  · intro α acc newRows
    rfl
  · intro α server pages m fuel hs hbefore hdone hfuel
    rw [query]
    have haux := queryRun_nocap_aux server pages hs m fuel 0 [] hfuel
      (fun j hj => by rw [Nat.zero_add]; exact hbefore j hj)
      (by rw [Nat.zero_add]; exact hdone)
    rw [List.nil_append] at haux
    exact haux

/-- Witness server for C7: three pages of sizes 200, 200 and 60; only the
third is marked done. -/
def pagesW7 : Nat → Page Nat := fun k =>
  if k = 0 then ⟨List.range 200, false⟩
  else if k = 1 then ⟨(List.range 200).map (fun i => 200 + i), false⟩
  else ⟨(List.range 60).map (fun i => 400 + i), true⟩

/-- Transport for the C7 witness. -/
def serverW7 : Nat → Except Err (Page Nat) := fun k => .ok (pagesW7 k)

set_option maxRecDepth 20000 in
/-- Witness for C7: pages {200, 200, 60} with done on the third yield
exactly the 460 rows 0..459 in page order. -/
theorem C7_accretive_pages_witness :
    query 0 serverW7 3 = .ok (pageRows pagesW7 0 3)
    ∧ (pageRows pagesW7 0 3).length = 460
    ∧ pageRows pagesW7 0 3 = List.range 460 := by
  refine ⟨C7_accretive_pages.2 serverW7 pagesW7 2 3 (fun k => rfl)
    (by decide) (by decide) (by decide), ?_, ?_⟩
  · decide
  · decide

/-- C8 (counterexample): the claim asserts every returned failure carries
its position in the original un-batched list, `startIndex` plus its
batch-local index.  With one unsuccessful response, `startIndex = 3` and an
empty source-entity list, `Errors` returns the response unmodified: its
`RecordIndex` is 0, not 3 + 0 — the guard `i < len(sobjects)` skips the
position assignment entirely when the batch-local index is out of range of
the entity list. -/
theorem C8_counterexample :
    (OpResponses.Errors [opFailW] 3 []).2 = [opFailW]
    ∧ opFailW.recordIndex = 0
    ∧ (0 : Nat) ≠ 3 + 0 := by decide

/-- C8 (amended): `Errors` returns exactly the unsuccessful outcomes, in
order; an outcome whose batch-local index i is within range of the supplied
source-entity list is returned carrying `RecordIndex = i + startIndex` and
the source entity at index i, while an outcome whose batch-local index is
out of range is returned unmodified (no position or entity is set). -/
theorem C8_failure_extraction :
    ∀ (oprs : List OpResponse) (s : Nat) (so : List SObject),
      (OpResponses.Errors oprs s so).2
        = (oprs.enum.filter (fun p => !p.2.success)).map
            (fun p => updOp s so p.1 p.2) := by
  intro oprs s so
  rw [OpResponses.Errors, errorsAux_snd]
  rfl

/-- C9 (counterexample): the claim asserts that, for every implementation
of the entity interface, the caller's original entity is left unmutated.
`RecordMap.WithAttr` refutes it: called on a record map, it stores the new
attribute block into the caller's own map and returns that same map, so
after the call the original differs from its prior value and coincides with
the transmitted value. -/
theorem C9_counterexample :
    ((SObject.recordMap none [("FirstName", "Ada")]).withAttr "").2
        ≠ SObject.recordMap none [("FirstName", "Ada")]
    ∧ ((SObject.recordMap none [("FirstName", "Ada")]).withAttr "").2
        = ((SObject.recordMap none [("FirstName", "Ada")]).withAttr "").1
    ∧ ((SObject.recordMap none [("FirstName", "Ada")]).withAttr "").1
        = SObject.recordMap (some ⟨"", "", ""⟩) [("FirstName", "Ada")] := by
  decide

/-- C9 (amended): the engine transmits `r.WithAttr("")` for each record.
For generated-struct entities (value receivers) the transmitted value is a
shallow copy carrying a fresh attribute block and the caller's original is
left unmutated, and `DeleteID` entities are returned as-is; but a
`RecordMap` entity is mutated in place: the caller's map itself receives
the attribute block, and the transmitted value is that same updated map. -/
theorem C9_withattr_mutation :
    ∀ (ref : String),
      (∀ (a : Bool) (p m : String) (pb : Nat × List SObject),
        (ccCallRec a p m pb).body.records
          = pb.2.map (fun r => (r.withAttr "").1))
      ∧ (∀ name attrs,
          ((SObject.structRec name attrs).withAttr ref).2
              = SObject.structRec name attrs
            ∧ ((SObject.structRec name attrs).withAttr ref).1
              = SObject.structRec name (some ⟨name, "", ref⟩))
      ∧ (∀ i, ((SObject.deleteID i).withAttr ref).2 = SObject.deleteID i
          ∧ ((SObject.deleteID i).withAttr ref).1 = SObject.deleteID i)
      ∧ (∀ attrs fields,
          ((SObject.recordMap attrs fields).withAttr ref).2
              = ((SObject.recordMap attrs fields).withAttr ref).1
            ∧ ((SObject.recordMap attrs fields).withAttr ref).1
              = SObject.recordMap
                  (some ⟨(SObject.recordMap attrs fields).sobjectName, "",
                    ref⟩) fields) :=
  fun _ => ⟨fun _ _ _ _ => rfl,
    fun _ _ => ⟨rfl, rfl⟩,
    fun _ => ⟨rfl, rfl⟩,
    fun _ _ => ⟨rfl, rfl⟩⟩

/-- C10 (confirmed): `Errors` mutates its receiver in place — afterwards
the receiver holds, at each position of an unsuccessful outcome whose
batch-local index is in range of the source-entity list, the element with
`RecordIndex` and `SObject` written into it — and the returned failure
list consists exactly of the failing elements of the mutated receiver, so
an aggregate is modified as a side effect of extracting its failures (the
concrete conjunct exhibits a receiver that changes). -/
theorem C10_receiver_mutation :
    (∀ (oprs : List OpResponse) (s : Nat) (so : List SObject),
      (OpResponses.Errors oprs s so).1
        = oprs.enum.map
            (fun p => if p.2.success then p.2 else updOp s so p.1 p.2)
      ∧ (OpResponses.Errors oprs s so).2
        = (OpResponses.Errors oprs s so).1.filter (fun op => !op.success))
    ∧ (OpResponses.Errors [opFailW] 5 [r1W]).1 ≠ [opFailW] := by
  constructor
  · intro oprs s so
    exact ⟨by rw [OpResponses.Errors, errorsAux_fst]; rfl,
      errorsAux_shares s so oprs 0⟩
  · decide

end SF
